import Mathlib

/-!
Shallow embedding of the CudaLogisticRegression trainer
(src/LogisticRegression/LogisticRegression.c) and proofs about it.

C doubles are modelled as real numbers; flat C buffers (double arrays)
are modelled as functions from natural-number indices to reals, and a
C for-loop that writes one cell per index is modelled as a fold over
the list of loop indices applying a pointwise functional update.
The weight initialization of initNode is additionally modelled at the
byte level, since it is a memset of a byte pattern over the double
buffer, together with an exact IEEE 754 binary64 decoder.
-/

namespace LogReg

/-- One per-feature descriptor, mirroring the NumericAttr record used by
the importer: running minimum, maximum and mean of the column. -/
structure NumericAttr where
  min : ℝ
  max : ℝ
  mean : ℝ

/-- Default descriptor used only as the fallback of List.getD at indices
that are always in range. -/
def attrDefault : NumericAttr := { min := 0, max := 0, mean := 0 }

/-- Functional update of one cell of a flat buffer, the model of a single
C assignment buff[idx] = v. -/
def writeBuff (b : ℕ → ℝ) (idx : ℕ) (v : ℝ) : ℕ → ℝ :=
  fun k => if k = idx then v else b k

/-- A C for-loop for (j = 0; j < n; j++) buff[idx j] = f j buff[idx j],
modelled as a left fold over the loop indices in order. -/
def writeLoop (idx : ℕ → ℕ) (f : ℕ → ℝ → ℝ) (n : ℕ) (b : ℕ → ℝ) : ℕ → ℝ :=
  (List.range n).foldl (fun buf j => writeBuff buf (idx j) (f j (buf (idx j)))) b

/-- Mirror of normalize from LogisticRegression.c restricted to one feature
column i: the inner for-loop over instances j rewriting
featureBuff[j * numFeatures + i] to (v - mean) / (max - min). -/
noncomputable def normalizeCol (attr : NumericAttr) (numFeatures i numInstances : ℕ)
    (b : ℕ → ℝ) : ℕ → ℝ :=
  writeLoop (fun j => j * numFeatures + i)
    (fun _ v => (v - attr.mean) / (attr.max - attr.min)) numInstances b

/-- The outer loop of normalize truncated to the first m feature columns;
the column update is skipped when the range max - min is zero. -/
noncomputable def normalizeAux (featureVec : List NumericAttr) (numInstances : ℕ)
    (b : ℕ → ℝ) (m : ℕ) : ℕ → ℝ :=
  (List.range m).foldl (fun buf i =>
    if (featureVec.getD i attrDefault).max - (featureVec.getD i attrDefault).min = 0 then buf
    else normalizeCol (featureVec.getD i attrDefault) featureVec.length i numInstances buf) b

/-- Mirror of normalize from LogisticRegression.c: for each feature column i
with nonzero range, every cell of that column is replaced by
(v - mean) / (max - min); columns with zero range are skipped. The
descriptor list is an input only and is returned unchanged to the caller
(the C function receives featureVec by value and never writes to it). -/
noncomputable def normalize (featureVec : List NumericAttr) (featureBuff : ℕ → ℝ)
    (numInstances : ℕ) : ℕ → ℝ :=
  normalizeAux featureVec numInstances featureBuff featureVec.length

/-- Mirror of activate from LogisticRegression.c: the bias weight at index
numFeatures plus the weighted sum of the inputs, fed through the logistic
sigmoid. -/
noncomputable def activate (weights : ℕ → ℝ) (numFeatures : ℕ) (inputs : ℕ → ℝ) : ℝ :=
  1 / (1 + Real.exp (-((List.range numFeatures).foldl
    (fun acc i => acc + weights i * inputs i) (weights numFeatures))))

/-- Mirror of computeCost from LogisticRegression.c: the ternary
(y)? -log(hRes) : -log(1.0 - hRes). -/
noncomputable def computeCost (hRes : ℝ) (y : ℕ) : ℝ :=
  if y ≠ 0 then -Real.log hRes else -Real.log (1 - hRes)

/-- Full training-loop state of main in LogisticRegression.c: the flat
feature buffer, the class-index buffer, the two dimensions, the weight
buffer of the Node, the completed-iteration counter, and the two cost
scalars costSumPre and deltaCostSum. -/
structure TrainState where
  featureBuff : ℕ → ℝ
  classIndexBuff : ℕ → ℕ
  numInst : ℕ
  numFeatures : ℕ
  weights : ℕ → ℝ
  iter : ℕ
  costSumPre : ℝ
  deltaCostSum : ℝ

/-- Iteration bound maxIter = 200 from main. -/
def maxIter : ℕ := 200

/-- Learning rate alpha = 50.0 from main. -/
noncomputable def alpha : ℝ := 50

/-- Row i of the flat row-major feature buffer, as passed to activate by
main via featureBuff[i * numFeatures]. -/
def rowOf (s : TrainState) (i : ℕ) : ℕ → ℝ :=
  fun j => s.featureBuff (i * s.numFeatures + j)

/-- One instance i of the inner loop of main: add the cost of the
activation to the cost accumulator and diff * inputs[j] to every feature
slot j of the gradient accumulator batchArr. -/
noncomputable def accumStep (s : TrainState) (p : ℝ × (ℕ → ℝ)) (i : ℕ) : ℝ × (ℕ → ℝ) :=
  let hRes := activate s.weights s.numFeatures (rowOf s i)
  let diff := hRes - (s.classIndexBuff i : ℝ)
  (p.1 + computeCost hRes (s.classIndexBuff i),
   writeLoop (fun j => j) (fun j v => v + diff * rowOf s i j) s.numFeatures p.2)

/-- The inner loop of main over the first n instances, starting from the
zeroed accumulators costSumNew = 0.0 and memset batchArr. -/
noncomputable def accumAux (s : TrainState) (n : ℕ) : ℝ × (ℕ → ℝ) :=
  (List.range n).foldl (accumStep s) (0, fun _ => 0)

/-- The full inner loop of one gradient-descent iteration of main. -/
noncomputable def accumulate (s : TrainState) : ℝ × (ℕ → ℝ) := accumAux s s.numInst

/-- One full iteration of the do-while loop of main: run the inner loop,
set deltaCostSum and costSumPre, update the feature weights (the bias slot
numFeatures is not written), and increment iter. -/
noncomputable def gdStep (s : TrainState) : TrainState :=
  let acc := accumulate s
  { s with
    weights := writeLoop (fun j => j)
      (fun j v => v - alpha / (s.numInst : ℝ) * acc.2 j) s.numFeatures s.weights,
    deltaCostSum := s.costSumPre - acc.1,
    costSumPre := acc.1,
    iter := s.iter + 1 }

/-- The do-while guard of main: iter == 1 || (deltaCostSum > 1.0 && iter < maxIter). -/
def continueCond (s : TrainState) : Prop :=
  s.iter = 1 ∨ (s.deltaCostSum > 1 ∧ s.iter < maxIter)

open Classical in
/-- The do-while loop of main: execute one iteration, then loop while the
guard holds on the resulting state. -/
noncomputable def gdRun (s : TrainState) : TrainState :=
  if h : continueCond (gdStep s) then gdRun (gdStep s) else gdStep s
termination_by maxIter - s.iter
decreasing_by
  have hiter : (gdStep s).iter = s.iter + 1 := rfl
  simp only [continueCond, hiter] at h
  simp only [hiter, maxIter] at *
  rcases h with h1 | h2
  · omega
  · have h3 := h2.2
    omega

/-- Byte image of the weight buffer written by initNode in
LogisticRegression.c: malloc of (numFeatures + 1) doubles of 8 bytes each,
followed by memset of every byte to 0x01. -/
def initNodeBytes (numFeatures : ℕ) : List ℕ := List.replicate ((numFeatures + 1) * 8) 1

/-- Value of a little-endian byte list as a natural number. -/
def bytesToBits (bytes : List ℕ) : ℕ := bytes.foldr (fun b acc => b + 256 * acc) 0

/-- The 64-bit patterns of the numFeatures + 1 weight slots produced by
initNode, obtained by grouping the memset byte image into consecutive
little-endian 8-byte words. -/
def initNodeWeightBits (numFeatures : ℕ) : List ℕ :=
  (List.range (numFeatures + 1)).map
    (fun k => bytesToBits (((initNodeBytes numFeatures).drop (8 * k)).take 8))

/-- The 64-bit word whose eight bytes all equal 0x01. -/
def memsetDoubleBits : ℕ := 0x0101010101010101

/-- IEEE 754 binary64 decoding of a 64-bit pattern into an exact value
significand * 2 ^ exponent; none for the NaN and infinity patterns. -/
def decodeDouble (bits : ℕ) : Option (ℤ × ℤ) :=
  let sign : ℕ := bits / 2 ^ 63 % 2
  let expBits : ℕ := bits / 2 ^ 52 % 2 ^ 11
  let mantissa : ℕ := bits % 2 ^ 52
  if expBits = 2 ^ 11 - 1 then none
  else if expBits = 0 then
    some (if sign = 1 then -(mantissa : ℤ) else (mantissa : ℤ), -1074)
  else
    some (if sign = 1 then -((2 ^ 52 + mantissa : ℕ) : ℤ) else ((2 ^ 52 + mantissa : ℕ) : ℤ),
      (expBits : ℤ) - 1075)

/-- Exact rational value of a decoded significand-exponent pair. -/
def doubleVal (p : ℤ × ℤ) : ℚ := (p.1 : ℚ) * 2 ^ p.2

/-- A concrete training state with no instances and iteration counter 5,
used to instantiate the stopping-rule theorems. -/
noncomputable def haltState : TrainState :=
  { featureBuff := fun _ => 0, classIndexBuff := fun _ => 0, numInst := 0,
    numFeatures := 0, weights := fun _ => 0, iter := 5, costSumPre := 0,
    deltaCostSum := 0 }

/-- A concrete training state before the first iteration. -/
noncomputable def startState : TrainState :=
  { haltState with iter := 0 }

/-- A concrete one-column descriptor list with min 1, max 3, mean 2. -/
noncomputable def fvW : List NumericAttr := [{ min := 1, max := 3, mean := 2 }]

/-- A concrete constant feature buffer with every cell equal to 4. -/
noncomputable def bW : ℕ → ℝ := fun _ => 4

/-- A concrete constant feature buffer with every cell equal to 2. -/
noncomputable def cW : ℕ → ℝ := fun _ => 2

lemma writeLoop_succ (idx : ℕ → ℕ) (f : ℕ → ℝ → ℝ) (n : ℕ) (b : ℕ → ℝ) :
    writeLoop idx f (n + 1) b =
      writeBuff (writeLoop idx f n b) (idx n) (f n (writeLoop idx f n b (idx n))) := by
  unfold writeLoop
  rw [List.range_succ, List.foldl_append]
  rfl

lemma writeLoop_not_hit (idx : ℕ → ℕ) (f : ℕ → ℝ → ℝ) (n : ℕ) (b : ℕ → ℝ) (k : ℕ)
    (hk : ∀ j, j < n → idx j ≠ k) :
    writeLoop idx f n b k = b k := by
  induction n with
  | zero => rfl
  | succ m ih =>
    rw [writeLoop_succ]
    have hm : idx m ≠ k := hk m (Nat.lt_succ_self m)
    simp only [writeBuff]
    rw [if_neg (fun h => hm h.symm)]
    exact ih (fun j hj => hk j (Nat.lt_succ_of_lt hj))

lemma writeLoop_hit (idx : ℕ → ℕ) (f : ℕ → ℝ → ℝ) (n : ℕ) (b : ℕ → ℝ) (j : ℕ)
    (hinj : ∀ a c, a < n → c < n → idx a = idx c → a = c) (hj : j < n) :
    writeLoop idx f n b (idx j) = f j (b (idx j)) := by
  induction n with
  | zero => exact absurd hj (Nat.not_lt_zero j)
  | succ m ih =>
    rw [writeLoop_succ]
    rcases Nat.lt_succ_iff_lt_or_eq.mp hj with hjm | hjm
    · have hne : idx j ≠ idx m := fun h =>
        Nat.lt_irrefl m (hinj j m (Nat.lt_succ_of_lt hjm) (Nat.lt_succ_self m) h ▸ hjm)
      simp only [writeBuff]
      rw [if_neg hne]
      exact ih (fun a c ha hc => hinj a c (Nat.lt_succ_of_lt ha) (Nat.lt_succ_of_lt hc)) hjm
    · subst hjm
      have hprev : writeLoop idx f j b (idx j) = b (idx j) := by
        apply writeLoop_not_hit
        intro a ha h
        exact Nat.lt_irrefl j (hinj a j (Nat.lt_succ_of_lt ha) (Nat.lt_succ_self j) h ▸ ha)
      simp [writeBuff, hprev]

lemma foldl_add_range (f : ℕ → ℝ) (c : ℝ) (n : ℕ) :
    (List.range n).foldl (fun a i => a + f i) c = c + ∑ i ∈ Finset.range n, f i := by
  induction n with
  | zero => simp
  | succ m ih =>
    rw [List.range_succ, List.foldl_append, Finset.sum_range_succ]
    simp only [List.foldl_cons, List.foldl_nil, ih]
    ring

lemma activate_eq (w : ℕ → ℝ) (nf : ℕ) (x : ℕ → ℝ) :
    activate w nf x =
      1 / (1 + Real.exp (-(w nf + ∑ i ∈ Finset.range nf, w i * x i))) := by
  unfold activate
  rw [foldl_add_range]

lemma activate_pos (w : ℕ → ℝ) (nf : ℕ) (x : ℕ → ℝ) : 0 < activate w nf x := by
  unfold activate
  positivity

lemma activate_lt_one (w : ℕ → ℝ) (nf : ℕ) (x : ℕ → ℝ) : activate w nf x < 1 := by
  unfold activate
  rw [div_lt_one (by positivity)]
  exact lt_add_of_pos_right 1 (Real.exp_pos _)

lemma normalizeCol_spec (attr : NumericAttr) (nf i n : ℕ) (b : ℕ → ℝ) (k : ℕ)
    (hi : i < nf) :
    normalizeCol attr nf i n b k =
      if k % nf = i ∧ k / nf < n then (b k - attr.mean) / (attr.max - attr.min)
      else b k := by
  have hnf : 0 < nf := Nat.lt_of_le_of_lt (Nat.zero_le i) hi
  have hidx : ∀ j : ℕ, (j * nf + i) % nf = i ∧ (j * nf + i) / nf = j := by
    intro j
    constructor
    · rw [Nat.add_comm, Nat.add_mul_mod_self_right]
      exact Nat.mod_eq_of_lt hi
    · rw [Nat.add_comm, Nat.add_mul_div_right i j hnf, Nat.div_eq_of_lt hi, Nat.zero_add]
  by_cases h : k % nf = i ∧ k / nf < n
  · have hkey : k / nf * nf + i = k := by
      rw [← h.1, Nat.mul_comm]
      exact Nat.div_add_mod k nf
    rw [if_pos h]
    conv_lhs => rw [← hkey]
    unfold normalizeCol
    rw [writeLoop_hit _ _ _ _ _ ?_ h.2]
    · rw [hkey]
    · intro a c _ _ hac
      have ha := (hidx a).2
      have hc := (hidx c).2
      rw [← ha, hac, hc]
  · rw [if_neg h]
    unfold normalizeCol
    apply writeLoop_not_hit
    intro j hj hk
    apply h
    rw [← hk]
    exact ⟨(hidx j).1, by rw [(hidx j).2]; exact hj⟩

lemma normalizeAux_succ (fv : List NumericAttr) (n : ℕ) (b : ℕ → ℝ) (m : ℕ) :
    normalizeAux fv n b (m + 1) =
      if (fv.getD m attrDefault).max - (fv.getD m attrDefault).min = 0 then
        normalizeAux fv n b m
      else normalizeCol (fv.getD m attrDefault) fv.length m n (normalizeAux fv n b m) := by
  unfold normalizeAux
  rw [List.range_succ, List.foldl_append]
  rfl

lemma normalizeAux_spec (fv : List NumericAttr) (n : ℕ) (b : ℕ → ℝ) (m : ℕ)
    (hm : m ≤ fv.length) (k : ℕ) :
    normalizeAux fv n b m k =
      if k % fv.length < m ∧ k / fv.length < n ∧
          (fv.getD (k % fv.length) attrDefault).max -
            (fv.getD (k % fv.length) attrDefault).min ≠ 0 then
        (b k - (fv.getD (k % fv.length) attrDefault).mean) /
          ((fv.getD (k % fv.length) attrDefault).max -
            (fv.getD (k % fv.length) attrDefault).min)
      else b k := by
  induction m with
  | zero =>
    rw [if_neg (by omega)]
    rfl
  | succ m ih =>
    have hm' : m ≤ fv.length := Nat.le_of_succ_le hm
    have hmlt : m < fv.length := hm
    rw [normalizeAux_succ]
    by_cases hcol : k % fv.length = m
    · by_cases hr : (fv.getD m attrDefault).max - (fv.getD m attrDefault).min = 0
      · rw [if_pos hr, ih hm']
        rw [if_neg (by omega), if_neg (by rw [hcol]; tauto)]
      · rw [if_neg hr, normalizeCol_spec _ _ _ _ _ _ hmlt]
        by_cases hrow : k / fv.length < n
        · rw [if_pos ⟨hcol, hrow⟩, ih hm', if_neg (by omega)]
          rw [if_pos (by rw [hcol]; exact ⟨by omega, hrow, hr⟩), hcol]
        · rw [if_neg (by tauto), ih hm', if_neg (by omega), if_neg (by tauto)]
    · by_cases hr : (fv.getD m attrDefault).max - (fv.getD m attrDefault).min = 0
      · rw [if_pos hr, ih hm']
        by_cases hk : k % fv.length < m ∧ k / fv.length < n ∧
            (fv.getD (k % fv.length) attrDefault).max -
              (fv.getD (k % fv.length) attrDefault).min ≠ 0
        · rw [if_pos hk, if_pos ⟨by omega, hk.2⟩]
        · rw [if_neg hk, if_neg (by rw [Nat.lt_succ_iff_lt_or_eq]; tauto)]
      · rw [if_neg hr, normalizeCol_spec _ _ _ _ _ _ hmlt, if_neg (by tauto), ih hm']
        by_cases hk : k % fv.length < m ∧ k / fv.length < n ∧
            (fv.getD (k % fv.length) attrDefault).max -
              (fv.getD (k % fv.length) attrDefault).min ≠ 0
        · rw [if_pos hk, if_pos ⟨by omega, hk.2⟩]
        · rw [if_neg hk, if_neg (by rw [Nat.lt_succ_iff_lt_or_eq]; tauto)]

lemma normalize_spec (fv : List NumericAttr) (b : ℕ → ℝ) (n : ℕ) (k : ℕ) :
    normalize fv b n k =
      if k % fv.length < fv.length ∧ k / fv.length < n ∧
          (fv.getD (k % fv.length) attrDefault).max -
            (fv.getD (k % fv.length) attrDefault).min ≠ 0 then
        (b k - (fv.getD (k % fv.length) attrDefault).mean) /
          ((fv.getD (k % fv.length) attrDefault).max -
            (fv.getD (k % fv.length) attrDefault).min)
      else b k :=
  normalizeAux_spec fv n b fv.length (Nat.le_refl _) k

lemma colIndex_mod (fv : List NumericAttr) (i j : ℕ) (hi : i < fv.length) :
    (j * fv.length + i) % fv.length = i := by
  rw [Nat.add_comm, Nat.add_mul_mod_self_right]
  exact Nat.mod_eq_of_lt hi

lemma colIndex_div (fv : List NumericAttr) (i j : ℕ) (hi : i < fv.length) :
    (j * fv.length + i) / fv.length = j := by
  rw [Nat.add_comm, Nat.add_mul_div_right i j (Nat.lt_of_le_of_lt (Nat.zero_le i) hi),
    Nat.div_eq_of_lt hi, Nat.zero_add]

lemma normalize_cell_zero (fv : List NumericAttr) (b : ℕ → ℝ) (n i j : ℕ)
    (hi : i < fv.length)
    (hr : (fv.getD i attrDefault).max - (fv.getD i attrDefault).min = 0) :
    normalize fv b n (j * fv.length + i) = b (j * fv.length + i) := by
  rw [normalize_spec, colIndex_mod fv i j hi]
  rw [if_neg (by tauto)]

lemma normalize_cell (fv : List NumericAttr) (b : ℕ → ℝ) (n i j : ℕ)
    (hi : i < fv.length) (hj : j < n)
    (hr : (fv.getD i attrDefault).max - (fv.getD i attrDefault).min ≠ 0) :
    normalize fv b n (j * fv.length + i) =
      (b (j * fv.length + i) - (fv.getD i attrDefault).mean) /
        ((fv.getD i attrDefault).max - (fv.getD i attrDefault).min) := by
  rw [normalize_spec, colIndex_mod fv i j hi, colIndex_div fv i j hi]
  rw [if_pos ⟨hi, hj, hr⟩]

lemma gdStep_iter (s : TrainState) : (gdStep s).iter = s.iter + 1 := rfl

lemma gdRun_halt (s : TrainState) (h : ¬ continueCond (gdStep s)) :
    gdRun s = gdStep s := by
  rw [gdRun]
  exact dif_neg h

lemma gdRun_cont (s : TrainState) (h : continueCond (gdStep s)) :
    gdRun s = gdRun (gdStep s) := by
  conv_lhs => rw [gdRun]
  exact dif_pos h

lemma gdRun_inv_aux (P : TrainState → Prop) (hstep : ∀ t, P t → P (gdStep t)) :
    ∀ n s, maxIter - s.iter ≤ n → P (gdStep s) → P (gdRun s) := by
  intro n
  induction n with
  | zero =>
    intro s hle hp
    have hnc : ¬ continueCond (gdStep s) := by
      intro hc
      simp only [continueCond, gdStep_iter] at hc
      simp only [maxIter] at hle
      rcases hc with h1 | h2
      · omega
      · have h3 := h2.2
        simp only [maxIter] at h3
        omega
    rw [gdRun_halt s hnc]
    exact hp
  | succ n ih =>
    intro s hle hp
    by_cases hc : continueCond (gdStep s)
    · rw [gdRun_cont s hc]
      apply ih
      · simp only [continueCond, gdStep_iter, maxIter] at hc
        simp only [gdStep_iter, maxIter]
        simp only [maxIter] at hle
        rcases hc with h1 | h2
        · omega
        · have h3 := h2.2
          omega
      · exact hstep _ hp
    · rw [gdRun_halt s hc]
      exact hp

lemma gdRun_inv (P : TrainState → Prop) (hstep : ∀ t, P t → P (gdStep t))
    (s : TrainState) (hp : P (gdStep s)) : P (gdRun s) :=
  gdRun_inv_aux P hstep (maxIter - s.iter) s (Nat.le_refl _) hp

lemma gdRun_iter_ge (s : TrainState) : s.iter + 1 ≤ (gdRun s).iter := by
  apply gdRun_inv (fun t => s.iter + 1 ≤ t.iter)
  · intro t ht
    rw [gdStep_iter]
    omega
  · rw [gdStep_iter]

lemma gdRun_iter_le_aux :
    ∀ n s, maxIter - s.iter ≤ n → s.iter < maxIter → (gdRun s).iter ≤ maxIter := by
  intro n
  induction n with
  | zero =>
    intro s hle hlt
    simp only [maxIter] at *
    omega
  | succ n ih =>
    intro s hle hlt
    by_cases hc : continueCond (gdStep s)
    · rw [gdRun_cont s hc]
      have hlt' : (gdStep s).iter < maxIter := by
        simp only [continueCond] at hc
        rcases hc with h1 | h2
        · rw [h1]
          simp only [maxIter]
          omega
        · exact h2.2
      apply ih
      · simp only [gdStep_iter, maxIter] at *
        omega
      · exact hlt'
    · rw [gdRun_halt s hc, gdStep_iter]
      simp only [maxIter] at *
      omega

lemma gdRun_iter_le (s : TrainState) (h : s.iter < maxIter) : (gdRun s).iter ≤ maxIter :=
  gdRun_iter_le_aux (maxIter - s.iter) s (Nat.le_refl _) h

lemma accumAux_succ (s : TrainState) (n : ℕ) :
    accumAux s (n + 1) = accumStep s (accumAux s n) n := by
  unfold accumAux
  rw [List.range_succ, List.foldl_append]
  rfl

lemma accumAux_fst (s : TrainState) (n : ℕ) :
    (accumAux s n).1 = ∑ i ∈ Finset.range n,
      computeCost (activate s.weights s.numFeatures (rowOf s i)) (s.classIndexBuff i) := by
  induction n with
  | zero => simp [accumAux]
  | succ m ih =>
    rw [accumAux_succ, Finset.sum_range_succ, ← ih]
    rfl

lemma accumAux_snd (s : TrainState) (n : ℕ) (j : ℕ) :
    (accumAux s n).2 j =
      if j < s.numFeatures then
        ∑ i ∈ Finset.range n,
          (activate s.weights s.numFeatures (rowOf s i) - (s.classIndexBuff i : ℝ)) *
            rowOf s i j
      else 0 := by
  induction n with
  | zero => simp [accumAux]
  | succ m ih =>
    rw [accumAux_succ]
    show writeLoop (fun j => j)
      (fun j v => v +
        (activate s.weights s.numFeatures (rowOf s m) - (s.classIndexBuff m : ℝ)) *
          rowOf s m j)
      s.numFeatures (accumAux s m).2 j = _
    by_cases hj : j < s.numFeatures
    · rw [writeLoop_hit _ _ _ _ _ (fun a c _ _ h => h) hj, ih, if_pos hj, if_pos hj,
        Finset.sum_range_succ]
    · have hne : ∀ a, a < s.numFeatures → a ≠ j := fun a ha h => hj (h ▸ ha)
      rw [writeLoop_not_hit _ _ _ _ _ hne, ih, if_neg hj, if_neg hj]

lemma gdStep_weights (s : TrainState) (k : ℕ) :
    (gdStep s).weights k =
      if k < s.numFeatures then
        s.weights k - alpha / (s.numInst : ℝ) * (accumulate s).2 k
      else s.weights k := by
  show writeLoop (fun j => j)
    (fun j v => v - alpha / (s.numInst : ℝ) * (accumulate s).2 j)
    s.numFeatures s.weights k = _
  by_cases hk : k < s.numFeatures
  · rw [writeLoop_hit _ _ _ _ _ (fun a c _ _ h => h) hk, if_pos hk]
  · have hne : ∀ a, a < s.numFeatures → a ≠ k := fun a ha h => hk (h ▸ ha)
    rw [writeLoop_not_hit _ _ _ _ _ hne, if_neg hk]

lemma computeCost_pos (hRes : ℝ) (y : ℕ) (h0 : 0 < hRes) (h1 : hRes < 1) :
    0 < computeCost hRes y := by
  unfold computeCost
  by_cases hy : y ≠ 0
  · rw [if_pos hy]
    have := Real.log_neg h0 h1
    linarith
  · rw [if_neg hy]
    have := Real.log_neg (by linarith : (0:ℝ) < 1 - hRes) (by linarith)
    linarith

lemma accumAux_fst_nonneg (s : TrainState) (n : ℕ) : 0 ≤ (accumAux s n).1 := by
  rw [accumAux_fst]
  apply Finset.sum_nonneg
  intro i _
  exact le_of_lt (computeCost_pos _ _ (activate_pos _ _ _) (activate_lt_one _ _ _))

lemma initNodeBytes_group (nf k : ℕ) (hk : k < nf + 1) :
    ((initNodeBytes nf).drop (8 * k)).take 8 = List.replicate 8 1 := by
  unfold initNodeBytes
  rw [List.drop_replicate, List.take_replicate]
  congr 1
  omega

lemma initNodeWeightBits_eq (nf : ℕ) :
    initNodeWeightBits nf = List.replicate (nf + 1) memsetDoubleBits := by
  rw [List.eq_replicate_iff]
  constructor
  · simp [initNodeWeightBits]
  · intro b hb
    rw [initNodeWeightBits, List.mem_map] at hb
    obtain ⟨k, hk, hkb⟩ := hb
    rw [List.mem_range] at hk
    rw [← hkb, initNodeBytes_group nf k hk]
    rfl

lemma haltState_delta : (gdStep haltState).deltaCostSum = 0 := by
  show (0 : ℝ) - (accumulate haltState).1 = 0
  have h : (accumulate haltState).1 = 0 := rfl
  rw [h, sub_zero]

lemma haltState_not_continue : ¬ continueCond (gdStep haltState) := by
  intro hc
  rcases hc with h1 | h2
  · have h6 : (gdStep haltState).iter = 6 := rfl
    rw [h6] at h1
    omega
  · rw [haltState_delta] at h2
    exact absurd h2.1 (by norm_num)

/-- C1: in every training iteration, starting from the zeroed cost and
gradient accumulators, the inner loop over the rows 0..numInstances-1 in
stored order yields cost equal to the sum over rows of
computeCost(Activate(weights, row_i), label_i) and, for every feature
slot j, a gradient equal to the sum over rows of
(Activate(weights, row_i) - label_i) * row_i[j]; slots at or beyond
numFeatures keep their reset value zero. -/
theorem claim_C1 (s : TrainState) :
    (accumulate s).1 = ∑ i ∈ Finset.range s.numInst,
        computeCost (activate s.weights s.numFeatures (rowOf s i)) (s.classIndexBuff i) ∧
    ∀ j, (accumulate s).2 j =
        (if j < s.numFeatures then
          ∑ i ∈ Finset.range s.numInst,
            (activate s.weights s.numFeatures (rowOf s i) - (s.classIndexBuff i : ℝ)) *
              rowOf s i j
        else 0) :=
  ⟨accumAux_fst s s.numInst, fun j => accumAux_snd s s.numInst j⟩

/-- C2: each iteration sets deltaCostSum to the previous cost sum minus this
iteration's cost sum and then stores this iteration's cost sum in
costSumPre; the loop guard is exactly iter = 1 or (deltaCostSum above the
threshold 1 and iter below maxIter = 200); with delta-cost at most 1 and at
least two completed iterations the guard fails, and when the guard fails
the loop returns the state of the completed iteration, while when it holds
the loop goes on from that state. -/
theorem claim_C2 (s t : TrainState) :
    ((gdStep s).deltaCostSum = s.costSumPre - (accumulate s).1 ∧
      (gdStep s).costSumPre = (accumulate s).1) ∧
    (continueCond t ↔ (t.iter = 1 ∨ (t.deltaCostSum > 1 ∧ t.iter < maxIter))) ∧
    (t.deltaCostSum ≤ 1 → 2 ≤ t.iter → ¬ continueCond t) ∧
    (continueCond (gdStep s) → gdRun s = gdRun (gdStep s)) ∧
    (¬ continueCond (gdStep s) → gdRun s = gdStep s) := by
  refine ⟨⟨rfl, rfl⟩, Iff.rfl, ?_, gdRun_cont s, gdRun_halt s⟩
  intro hd hi hc
  rcases hc with h1 | h2
  · omega
  · exact absurd h2.1 (not_lt.mpr hd)

/-- C2 witness: the concrete halting state has delta-cost 0 and iteration
count 5, so the guard fails on it and the loop stops after the iteration. -/
theorem claim_C2_witness :
    haltState.deltaCostSum ≤ 1 ∧ 2 ≤ haltState.iter ∧ ¬ continueCond haltState ∧
      gdRun haltState = gdStep haltState := by
  have h1 : haltState.deltaCostSum ≤ 1 := by
    show (0 : ℝ) ≤ 1
    exact zero_le_one
  have h2 : 2 ≤ haltState.iter := by decide
  exact ⟨h1, h2, (claim_C2 haltState haltState).2.2.1 h1 h2,
    (claim_C2 haltState haltState).2.2.2.2 haltState_not_continue⟩

/-- C3: normalize leaves every cell of a feature column with zero range
max - min unchanged, and rewrites every cell of a column with nonzero range
to (v - mean) / (max - min); the descriptors are inputs only and are never
written. -/
theorem claim_C3 (fv : List NumericAttr) (b : ℕ → ℝ) (n i j : ℕ)
    (hi : i < fv.length) (hj : j < n) :
    ((fv.getD i attrDefault).max - (fv.getD i attrDefault).min = 0 →
        normalize fv b n (j * fv.length + i) = b (j * fv.length + i)) ∧
    ((fv.getD i attrDefault).max - (fv.getD i attrDefault).min ≠ 0 →
        normalize fv b n (j * fv.length + i) =
          (b (j * fv.length + i) - (fv.getD i attrDefault).mean) /
            ((fv.getD i attrDefault).max - (fv.getD i attrDefault).min)) :=
  ⟨fun hr => normalize_cell_zero fv b n i j hi hr,
   fun hr => normalize_cell fv b n i j hi hj hr⟩

/-- C3 witness: on the one-column descriptor with min 1, max 3, mean 2 and
the constant buffer 4, the single cell becomes (4 - 2) / (3 - 1). -/
theorem claim_C3_witness :
    0 < fvW.length ∧ 0 < 1 ∧
      normalize fvW bW 1 (0 * fvW.length + 0) =
        (bW (0 * fvW.length + 0) - 2) / (3 - 1) := by
  refine ⟨by decide, by decide, ?_⟩
  have hr : (fvW.getD 0 attrDefault).max - (fvW.getD 0 attrDefault).min ≠ 0 := by
    show (3 : ℝ) - 1 ≠ 0
    norm_num
  exact (claim_C3 fvW bW 1 0 0 (by decide) (by decide)).2 hr

/-- C4: activate computes the sigmoid 1 / (1 + exp(-linear)) of
linear = weights[numFeatures] + sum of weights[i] * inputs[i], and its
value is strictly between 0 and 1 for every real weight vector and row. -/
theorem claim_C4 (w : ℕ → ℝ) (nf : ℕ) (x : ℕ → ℝ) :
    activate w nf x =
        1 / (1 + Real.exp (-(w nf + ∑ i ∈ Finset.range nf, w i * x i))) ∧
    0 < activate w nf x ∧ activate w nf x < 1 :=
  ⟨activate_eq w nf x, activate_pos w nf x, activate_lt_one w nf x⟩

/-- C5: the weight update writes weights[k] - alpha / numInstances *
gradient[k] exactly at the feature slots k below numFeatures and leaves
every other slot, in particular the bias slot numFeatures, unchanged; no
gradient is ever accumulated at the bias index. -/
theorem claim_C5 (s : TrainState) :
    (∀ k, (gdStep s).weights k =
        (if k < s.numFeatures then
          s.weights k - alpha / (s.numInst : ℝ) * (accumulate s).2 k
        else s.weights k)) ∧
    (accumulate s).2 s.numFeatures = 0 := by
  refine ⟨gdStep_weights s, ?_⟩
  rw [show (accumulate s).2 = (accumAux s s.numInst).2 from rfl, accumAux_snd]
  rw [if_neg (Nat.lt_irrefl _)]

/-- C6: from iteration counter 0 the loop, a total function by well-founded
recursion on maxIter - iter, ends with at most maxIter = 200 completed
iterations; and as soon as the guard fails the loop returns the state of
the completed iteration unchanged, so no further weight mutation occurs. -/
theorem claim_C6 (s t : TrainState) (h : s.iter = 0) :
    (gdRun s).iter ≤ maxIter ∧
      (¬ continueCond (gdStep t) → gdRun t = gdStep t) := by
  refine ⟨?_, gdRun_halt t⟩
  apply gdRun_iter_le
  rw [h]
  simp only [maxIter]
  omega

/-- C6 witness: the loop run from the concrete zero-iteration state stops
with at most 200 iterations, and the concrete halting state exits at once. -/
theorem claim_C6_witness :
    startState.iter = 0 ∧ (gdRun startState).iter ≤ maxIter ∧
      gdRun haltState = gdStep haltState :=
  ⟨rfl, (claim_C6 startState haltState rfl).1,
    (claim_C6 startState haltState rfl).2 haltState_not_continue⟩

/-- C7: initNode produces numFeatures + 1 weight slots, each holding the
same 8-byte pattern 0x0101010101010101 coming from memset with byte 0x01,
and that pattern decodes under IEEE 754 binary64 to the nonzero value
4786178427519233 * 2 ^ (-1059). -/
theorem claim_C7 (nf : ℕ) :
    (initNodeWeightBits nf).length = nf + 1 ∧
    initNodeWeightBits nf = List.replicate (nf + 1) memsetDoubleBits ∧
    decodeDouble memsetDoubleBits = some (4786178427519233, -1059) ∧
    doubleVal (4786178427519233, -1059) ≠ 0 := by
  refine ⟨?_, initNodeWeightBits_eq nf, by decide, ?_⟩
  · rw [initNodeWeightBits_eq]
    exact List.length_replicate _ _
  · show ((4786178427519233 : ℤ) : ℚ) * (2 : ℚ) ^ (-1059 : ℤ) ≠ 0
    exact mul_ne_zero (by norm_num) (zpow_ne_zero _ (by norm_num))

/-- C8: for a feature column whose descriptor mean is the exact mean of the
column and whose range is nonzero, the normalized column sums to zero, so
its mean is exactly zero. -/
theorem claim_C8 (fv : List NumericAttr) (b : ℕ → ℝ) (n i : ℕ)
    (hi : i < fv.length)
    (hr : (fv.getD i attrDefault).max - (fv.getD i attrDefault).min ≠ 0)
    (hmean : ∑ j ∈ Finset.range n, b (j * fv.length + i) =
        (n : ℝ) * (fv.getD i attrDefault).mean) :
    (∑ j ∈ Finset.range n, normalize fv b n (j * fv.length + i)) / (n : ℝ) = 0 := by
  have hterm : ∀ j ∈ Finset.range n,
      normalize fv b n (j * fv.length + i) =
        (b (j * fv.length + i) - (fv.getD i attrDefault).mean) /
          ((fv.getD i attrDefault).max - (fv.getD i attrDefault).min) := by
    intro j hj
    exact normalize_cell fv b n i j hi (Finset.mem_range.mp hj) hr
  rw [Finset.sum_congr rfl hterm, ← Finset.sum_div, Finset.sum_sub_distrib,
    Finset.sum_const, Finset.card_range, nsmul_eq_mul, hmean, sub_self, zero_div,
    zero_div]

/-- C8 witness: the constant column 2 with descriptor mean 2 and range 2
normalizes to a column with mean zero. -/
theorem claim_C8_witness :
    0 < fvW.length ∧
    ((fvW.getD 0 attrDefault).max - (fvW.getD 0 attrDefault).min ≠ 0) ∧
    (∑ j ∈ Finset.range 2, normalize fvW cW 2 (j * fvW.length + 0)) / ((2 : ℕ) : ℝ) = 0 := by
  have hr : (fvW.getD 0 attrDefault).max - (fvW.getD 0 attrDefault).min ≠ 0 := by
    show (3 : ℝ) - 1 ≠ 0
    norm_num
  have hm : ∑ j ∈ Finset.range 2, cW (j * fvW.length + 0) =
      ((2 : ℕ) : ℝ) * (fvW.getD 0 attrDefault).mean := by
    show (∑ _j ∈ Finset.range 2, (2 : ℝ)) = ((2 : ℕ) : ℝ) * 2
    rw [Finset.sum_const, Finset.card_range, nsmul_eq_mul]
  exact ⟨by decide, hr, claim_C8 fvW cW 2 0 (by decide) hr hm⟩

/-- C9: one training iteration never writes the feature matrix, the label
buffer, or the dimensions, and the whole training loop therefore returns
them unchanged; only weights, iter and the cost scalars may change. -/
theorem claim_C9 (s : TrainState) :
    ((gdStep s).featureBuff = s.featureBuff ∧ (gdStep s).classIndexBuff = s.classIndexBuff ∧
      (gdStep s).numInst = s.numInst ∧ (gdStep s).numFeatures = s.numFeatures) ∧
    ((gdRun s).featureBuff = s.featureBuff ∧ (gdRun s).classIndexBuff = s.classIndexBuff) := by
  refine ⟨⟨rfl, rfl, rfl, rfl⟩, ?_⟩
  apply gdRun_inv (fun t => t.featureBuff = s.featureBuff ∧ t.classIndexBuff = s.classIndexBuff)
  · intro t ht
    exact ⟨ht.1, ht.2⟩
  · exact ⟨rfl, rfl⟩

/-- C10: from iteration counter 0 the do-while loop always completes at
least two iterations, because the first body runs unconditionally and the
guard disjunct iter == 1 forces a second one; moreover with costSumPre = 0
the first iteration's delta-cost 0 - costSum is non-positive, since the
accumulated cost is non-negative. -/
theorem claim_C10 (s : TrainState) (h : s.iter = 0) :
    2 ≤ (gdRun s).iter ∧
      (s.costSumPre = 0 → (gdStep s).deltaCostSum ≤ 0) := by
  constructor
  · have hc : continueCond (gdStep s) := Or.inl (by rw [gdStep_iter, h])
    rw [gdRun_cont s hc]
    have hge := gdRun_iter_ge (gdStep s)
    rw [gdStep_iter, h] at hge
    omega
  · intro hcp
    have hdelta : (gdStep s).deltaCostSum = s.costSumPre - (accumulate s).1 := rfl
    rw [hdelta, hcp, zero_sub]
    exact neg_nonpos.mpr (accumAux_fst_nonneg s s.numInst)

/-- C10 witness: the loop run from the concrete zero-iteration state, whose
costSumPre is 0, completes at least two iterations and has a non-positive
first delta-cost. -/
theorem claim_C10_witness :
    startState.iter = 0 ∧ 2 ≤ (gdRun startState).iter ∧
      (gdStep startState).deltaCostSum ≤ 0 :=
  ⟨rfl, (claim_C10 startState rfl).1, (claim_C10 startState rfl).2 rfl⟩

end LogReg
